import Mathlib

/-
Verification of the streaming variance core (libertem/udf/stddev.py).

The embedding models:
  * `VariancePart` / `merge`     — the pairwise Chan et al. accumulator merge;
  * `_validate_n`                — the per-region frame-count consistency check
                                   (Python `assert` failure is modelled as `none`);
  * `StdDevUDF.process_tile`     — the per-tile update step;
  * `StdDevUDF.merge`            — the partition/worker buffer merge;
  * `consolidate_result`         — finalization into variance/std/mean.

Arrays are modelled as functions `ι → ℚ` (exact arithmetic; all numpy
operations in the source are elementwise, with scalar counts broadcast).
Python dictionaries are modelled as insertion-ordered association lists.
A second value type `NpVal` models IEEE-754 special values (NaN, ±inf,
no signed zero) for the division-by-zero edge cases that exact rational
arithmetic cannot express.
-/

namespace StdDev

/-- Lookup in an insertion-ordered association list, mirroring a Python
dictionary read (`d[k]` / `k in d`). -/
def dictLookup {κ : Type} [DecidableEq κ] : List (κ × ℕ) → κ → Option ℕ
  | [], _ => none
  | p :: rest, k => if p.1 = k then some p.2 else dictLookup rest k

/-- Insertion-ordered update, mirroring a Python dictionary write `d[k] = v`:
replace in place if the key is present, otherwise append. -/
def dictInsert {κ : Type} [DecidableEq κ] : List (κ × ℕ) → κ → ℕ → List (κ × ℕ)
  | [], k, v => [(k, v)]
  | p :: rest, k, v => if p.1 = k then (k, v) :: rest else p :: dictInsert rest k v

/-- Write the value `v` under every key of `l` into `d`, in order — mirroring
the loop `for key in src: dest[key] = v` of `StdDevUDF.merge`. -/
def setAll {κ : Type} [DecidableEq κ] (d : List (κ × ℕ)) (v : ℕ) :
    List (κ × ℕ) → List (κ × ℕ)
  | [] => d
  | p :: rest => setAll (dictInsert d p.1 v) v rest

/-- The accumulator triple `VariancePart(var, sum_im, N)` of the source:
unnormalized variance sum, value sum (both signal-shaped arrays), frame count. -/
@[ext] structure VariancePart (ι : Type) where
  var : ι → ℚ
  sum_im : ι → ℚ
  N : ℕ

/-- The pairwise merge of two accumulators (source function `merge`, lines
11–53): guard `p0.N == 0` returns `p1`; otherwise the Chan et al. update.
All array operations are elementwise with the scalar counts broadcast. -/
def merge {ι : Type} (p0 p1 : VariancePart ι) : VariancePart ι :=
  if p0.N = 0 then p1
  else
    { var := fun i =>
        let mean_A := p0.sum_im i / (p0.N : ℚ)
        let mean_B := p1.sum_im i / (p1.N : ℚ)
        let delta := mean_B - mean_A
        let mean := mean_A + ((p1.N : ℚ) * delta) / ((p0.N : ℚ) + (p1.N : ℚ))
        let delta_P := mean_B - mean
        p0.var i + p1.var i + (p1.N : ℚ) * delta * delta_P
      sum_im := fun i => p0.sum_im i + p1.sum_im i
      N := p0.N + p1.N }

/-- The count-consistency check `_validate_n` (source lines 58–64): an empty
mapping yields 0; otherwise all values must equal the first value, which is
returned; the failing Python `assert` is modelled as `none`. -/
def _validate_n {κ : Type} : List (κ × ℕ) → Option ℕ
  | [] => some 0
  | p :: rest => if rest.all fun q => q.2 == p.2 then some p.2 else none

/-- The host-owned result buffers: `var` and `sum_frame` arrays plus the
`num_frame` region-key → count dictionary (`get_result_buffers`/`preprocess`). -/
@[ext] structure UDFState (ι κ : Type) where
  var : ι → ℚ
  sum_frame : ι → ℚ
  num_frame : List (κ × ℕ)

/-- The buffers as allocated by the host and prepared by `preprocess`:
pre-zeroed arrays, empty `num_frame` dictionary. -/
def initState (ι κ : Type) : UDFState ι κ :=
  { var := fun _ => 0, sum_frame := fun _ => 0, num_frame := [] }

/-- The column of a tile at pixel `i`: the tile's values along the leading
(frames) axis, so elementwise numpy reductions act on it. -/
def col {ι : Type} (tile : List (ι → ℚ)) (i : ι) : List ℚ :=
  tile.map fun fr => fr i

/-- Sum of squared deviations of a list from its own mean (the raw
unnormalized `M2` statistic). -/
def sqDevSum (l : List ℚ) : ℚ :=
  (l.map fun x => (x - l.sum / (l.length : ℚ)) ^ 2).sum

/-- Elementwise `np.var(tile, axis=0, ddof=d)`: mean of squared deviations
from the per-pixel mean with divisor `len − ddof`. -/
def npVarAxis0 {ι : Type} (tile : List (ι → ℚ)) (ddof : ℕ) : ι → ℚ := fun i =>
  let vals := col tile i
  (vals.map fun x => (x - vals.sum / (vals.length : ℚ)) ^ 2).sum /
    ((vals.length : ℚ) - (ddof : ℚ))

/-- The per-tile update step `StdDevUDF.process_tile` (source lines 148–183):
initialize the region key's count to 0 if new, build the tile-local
accumulator (with the `ddof = len − 1` divisor trick), fold it in via
`merge`, and store the merged count. The in-place buffer mutation of the
source is modelled by returning the updated state. -/
def StdDevUDF.process_tile {ι κ : Type} [DecidableEq κ]
    (s : UDFState ι κ) (tile : List (ι → ℚ)) (key : κ) : UDFState ι κ :=
  let s1 := if (dictLookup s.num_frame key).isSome then s
            else { s with num_frame := dictInsert s.num_frame key 0 }
  let tile_sum : ι → ℚ := fun i => (col tile i).sum
  let p0 : VariancePart ι :=
    ⟨s1.var, s1.sum_frame, (dictLookup s1.num_frame key).getD 0⟩
  let p1 : VariancePart ι :=
    ⟨npVarAxis0 tile (tile.length - 1), tile_sum, tile.length⟩
  let compute_merge := merge p0 p1
  { var := compute_merge.var
    sum_frame := compute_merge.sum_im
    num_frame := dictInsert s1.num_frame key compute_merge.N }

/-- The partition/worker merge step `StdDevUDF.merge` (source lines 116–146):
validate each side's counts, merge the two accumulators, write the combined
arrays back into `dest`, and set `dest`'s count to the merged count for every
key present in `src`. A failing count assertion is modelled as `none`. -/
def StdDevUDF.merge {ι κ : Type} [DecidableEq κ]
    (dest src : UDFState ι κ) : Option (UDFState ι κ) :=
  match _validate_n dest.num_frame, _validate_n src.num_frame with
  | some n0, some n1 =>
    let p0 : VariancePart ι := ⟨dest.var, dest.sum_frame, n0⟩
    let p1 : VariancePart ι := ⟨src.var, src.sum_frame, n1⟩
    let compute_merge := StdDev.merge p0 p1
    some { var := compute_merge.var
           sum_frame := compute_merge.sum_im
           num_frame := setAll dest.num_frame compute_merge.N src.num_frame }
  | _, _ => none

/-- The finalized result record of `consolidate_result`: variance, standard
deviation, mean, raw value sum, and the common frame count. -/
structure Consolidated (ι : Type) where
  var : ι → ℚ
  std : ι → ℝ
  mean : ι → ℚ
  sum_frame : ι → ℚ
  num_frame : ℕ

/-- Finalization `consolidate_result` (source lines 186–196): validate the
counts, divide `var` and `sum_frame` elementwise by the common count, take
the square root of the divided variance for `std`, and keep the raw
`sum_frame`. `Real.sqrt` forces this definition to be noncomputable; every
other field is exact rational arithmetic. -/
noncomputable def consolidate_result {ι κ : Type} (s : UDFState ι κ) :
    Option (Consolidated ι) :=
  (_validate_n s.num_frame).map fun (n : ℕ) =>
    { var := fun i => s.var i / (n : ℚ)
      std := fun i => Real.sqrt ((s.var i / (n : ℚ) : ℚ) : ℝ)
      mean := fun i => s.sum_frame i / (n : ℚ)
      sum_frame := s.sum_frame
      num_frame := n }

/-- Streaming a list of frames through the core as single-frame tiles under
one region key, starting from the given buffer state. -/
def streamFrames {ι κ : Type} [DecidableEq κ]
    (s : UDFState ι κ) (frames : List (ι → ℚ)) (key : κ) : UDFState ι κ :=
  frames.foldl (fun st fr => StdDevUDF.process_tile st [fr] key) s

/-- Modelled from the spec: the two-pass population variance of a list of
frames at pixel `i` — the sum of squared deviations from the overall mean,
divided by the number of frames. -/
def popVarianceSpec {ι : Type} (frames : List (ι → ℚ)) : ι → ℚ := fun i =>
  let vals := frames.map fun fr => fr i
  (vals.map fun x => (x - vals.sum / (vals.length : ℚ)) ^ 2).sum /
    (vals.length : ℚ)

/-- Modelled from the spec (§4.1): the merge contract's formula, written
exactly as the claim states it — `N = N_A + N_B`, sums added elementwise, and
`variance_sum + N_B * delta * delta_P` with `delta`/`delta_P` as given. -/
def mergeSpec {ι : Type} (p0 p1 : VariancePart ι) : VariancePart ι :=
  { var := fun i =>
      let delta := p1.sum_im i / (p1.N : ℚ) - p0.sum_im i / (p0.N : ℚ)
      let delta_P := p1.sum_im i / (p1.N : ℚ) -
        (p0.sum_im i / (p0.N : ℚ) +
          (p1.N : ℚ) * delta / ((p0.N : ℚ) + (p1.N : ℚ)))
      p0.var i + p1.var i + (p1.N : ℚ) * delta * delta_P
    sum_im := fun i => p0.sum_im i + p1.sum_im i
    N := p0.N + p1.N }

/-- The state reached after folding the frames `xs` (as single-frame tiles
under key `k`) into freshly allocated buffers: exact per-pixel `M2` and sum,
and the single region count `xs.length`. -/
def exactState {ι κ : Type} (xs : List (ι → ℚ)) (k : κ) : UDFState ι κ :=
  { var := fun i => sqDevSum (col xs i)
    sum_frame := fun i => (col xs i).sum
    num_frame := [(k, xs.length)] }

/-- IEEE-754-style scalar value for the floating-point model: a finite value
(rationals stand in for the representable floats), the two infinities, or
NaN. Signed zero is not modelled; none of the modelled code paths depend on
it. -/
inductive NpVal where
  | fin : ℚ → NpVal
  | pinf : NpVal
  | ninf : NpVal
  | nan : NpVal
deriving DecidableEq

/-- IEEE negation. -/
def NpVal.neg : NpVal → NpVal
  | fin a => fin (-a)
  | pinf => ninf
  | ninf => pinf
  | nan => nan

/-- IEEE addition: NaN propagates, opposite infinities give NaN. -/
def NpVal.add : NpVal → NpVal → NpVal
  | fin a, fin b => fin (a + b)
  | fin _, pinf => pinf
  | fin _, ninf => ninf
  | pinf, fin _ => pinf
  | ninf, fin _ => ninf
  | pinf, pinf => pinf
  | ninf, ninf => ninf
  | pinf, ninf => nan
  | ninf, pinf => nan
  | _, _ => nan

/-- IEEE subtraction, as addition of the negation. -/
def NpVal.sub (a b : NpVal) : NpVal := a.add b.neg

/-- IEEE multiplication: NaN propagates, zero times infinity gives NaN. -/
def NpVal.mul : NpVal → NpVal → NpVal
  | fin a, fin b => fin (a * b)
  | fin a, pinf => if 0 < a then pinf else if a < 0 then ninf else nan
  | fin a, ninf => if 0 < a then ninf else if a < 0 then pinf else nan
  | pinf, fin b => if 0 < b then pinf else if b < 0 then ninf else nan
  | ninf, fin b => if 0 < b then ninf else if b < 0 then pinf else nan
  | pinf, pinf => pinf
  | pinf, ninf => ninf
  | ninf, pinf => ninf
  | ninf, ninf => pinf
  | _, _ => nan

/-- IEEE division (no signed zero): `0/0` and `inf/inf` give NaN, a nonzero
finite value divided by zero gives a signed infinity, division by an
infinity gives zero. This is exactly what numpy produces (with a
RuntimeWarning) on the source's division by a zero frame count. -/
def NpVal.div : NpVal → NpVal → NpVal
  | fin a, fin b =>
      if b = 0 then (if 0 < a then pinf else if a < 0 then ninf else nan)
      else fin (a / b)
  | fin _, pinf => fin 0
  | fin _, ninf => fin 0
  | pinf, fin b => if 0 ≤ b then pinf else ninf
  | ninf, fin b => if 0 ≤ b then ninf else pinf
  | _, _ => nan

/-- Accumulator triple over the floating-point value model. -/
@[ext] structure NpPart (ι : Type) where
  var : ι → NpVal
  sum_im : ι → NpVal
  N : ℕ

/-- The source's `merge` over the floating-point value model: the same
guard and formula as `merge`, with IEEE special-value propagation. -/
def mergeNp {ι : Type} (p0 p1 : NpPart ι) : NpPart ι :=
  if p0.N = 0 then p1
  else
    { var := fun i =>
        let mean_A := (p0.sum_im i).div (NpVal.fin (p0.N : ℚ))
        let mean_B := (p1.sum_im i).div (NpVal.fin (p1.N : ℚ))
        let delta := mean_B.sub mean_A
        let mean := mean_A.add
          (((NpVal.fin (p1.N : ℚ)).mul delta).div
            (NpVal.fin ((p0.N : ℚ) + (p1.N : ℚ))))
        let delta_P := mean_B.sub mean
        ((p0.var i).add (p1.var i)).add
          (((NpVal.fin (p1.N : ℚ)).mul delta).mul delta_P)
      sum_im := fun i => (p0.sum_im i).add (p1.sum_im i)
      N := p0.N + p1.N }

/-- Result buffers over the floating-point value model. -/
@[ext] structure NpState (ι κ : Type) where
  var : ι → NpVal
  sum_frame : ι → NpVal
  num_frame : List (κ × ℕ)

/-- The finalized record over the floating-point value model. `std`
(`np.sqrt` of the divided variance) is omitted here because the square root
of a rational is not rational; it is modelled in the exact embedding
(`consolidate_result`), and none of the edge-case claims need it. -/
structure NpConsolidated (ι : Type) where
  var : ι → NpVal
  mean : ι → NpVal
  sum_frame : ι → NpVal
  num_frame : ℕ

/-- `consolidate_result` over the floating-point value model: the same
validation and elementwise divisions as the source, with IEEE special-value
propagation when the common count is zero. -/
def consolidateNp {ι κ : Type} (s : NpState ι κ) : Option (NpConsolidated ι) :=
  (_validate_n s.num_frame).map fun (n : ℕ) =>
    { var := fun i => (s.var i).div (NpVal.fin (n : ℚ))
      mean := fun i => (s.sum_frame i).div (NpVal.fin (n : ℚ))
      sum_frame := s.sum_frame
      num_frame := n }

/-- Ghost-instrumented buffer state: the plain state plus `folded`, the
number of frames whose values have actually been folded into the `var` and
`sum_frame` arrays. Only the two mutators below ever advance it. -/
structure GState (ι κ : Type) where
  toState : UDFState ι κ
  folded : ℕ

/-- Ghost-instrumented tile update: the plain `process_tile`, with `folded`
advanced by exactly the tile's frame count. -/
def processTileG {ι κ : Type} [DecidableEq κ]
    (s : GState ι κ) (tile : List (ι → ℚ)) (key : κ) : GState ι κ :=
  ⟨StdDevUDF.process_tile s.toState tile key, s.folded + tile.length⟩

/-- Ghost-instrumented buffer merge: the plain `StdDevUDF.merge`, with the
merged state folding exactly the frames folded by both inputs. -/
def mergeBuffersG {ι κ : Type} [DecidableEq κ]
    (dest src : GState ι κ) : Option (GState ι κ) :=
  (StdDevUDF.merge dest.toState src.toState).map fun out =>
    ⟨out, dest.folded + src.folded⟩

/-- The count/array consistency invariant of the spec (§3): the `num_frame`
dictionary has no duplicate keys (it models a Python dict), and every
recorded region count equals the number of frames folded into the arrays. -/
def Inv {ι κ : Type} (s : GState ι κ) : Prop :=
  (s.toState.num_frame.map Prod.fst).Nodup ∧
  (s.toState.num_frame = [] → s.folded = 0) ∧
  ∀ p ∈ s.toState.num_frame, p.2 = s.folded

section DictLemmas

variable {κ : Type} [DecidableEq κ]

theorem dictLookup_insert_self (d : List (κ × ℕ)) (k : κ) (v : ℕ) :
    dictLookup (dictInsert d k v) k = some v := by
  induction d with
  | nil => simp [dictInsert, dictLookup]
  | cons p rest ih =>
    by_cases h : p.1 = k
    · simp [dictInsert, dictLookup, h]
    · simp [dictInsert, dictLookup, h, ih]

theorem dictLookup_insert_ne (d : List (κ × ℕ)) (k a : κ) (v : ℕ) (h : a ≠ k) :
    dictLookup (dictInsert d k v) a = dictLookup d a := by
  have hka : ¬k = a := fun hh => h hh.symm
  induction d with
  | nil => simp [dictInsert, dictLookup, hka]
  | cons p rest ih =>
    by_cases hp : p.1 = k
    · simp [dictInsert, dictLookup, hp, hka]
    · by_cases ha : p.1 = a
      · simp [dictInsert, dictLookup, hp, ha, h, hka]
      · simp [dictInsert, dictLookup, hp, ha, h, hka, ih]

theorem dictInsert_ne_nil (d : List (κ × ℕ)) (k : κ) (v : ℕ) :
    dictInsert d k v ≠ [] := by
  cases d with
  | nil => simp [dictInsert]
  | cons p rest =>
    by_cases h : p.1 = k <;> simp [dictInsert, h]

theorem mem_keys_dictInsert (d : List (κ × ℕ)) (k a : κ) (v : ℕ) :
    a ∈ (dictInsert d k v).map Prod.fst ↔ a ∈ d.map Prod.fst ∨ a = k := by
  induction d with
  | nil => simp [dictInsert]
  | cons p rest ih =>
    by_cases h : p.1 = k
    · subst h
      simp [dictInsert]
      tauto
    · simp [dictInsert, h, ih]
      tauto

theorem nodup_keys_dictInsert (d : List (κ × ℕ)) (k : κ) (v : ℕ)
    (hd : (d.map Prod.fst).Nodup) : ((dictInsert d k v).map Prod.fst).Nodup := by
  induction d with
  | nil => simp [dictInsert]
  | cons p rest ih =>
    simp only [List.map_cons, List.nodup_cons] at hd
    by_cases h : p.1 = k
    · subst h
      simpa [dictInsert] using hd
    · simp only [dictInsert, if_neg h, List.map_cons, List.nodup_cons]
      refine ⟨?_, ih hd.2⟩
      rw [mem_keys_dictInsert]
      rintro (hmem | hk)
      · exact hd.1 hmem
      · exact h hk

theorem mem_dictInsert (d : List (κ × ℕ)) (k : κ) (v : ℕ) (q : κ × ℕ)
    (hq : q ∈ dictInsert d k v) : q = (k, v) ∨ q ∈ d := by
  induction d with
  | nil => simpa [dictInsert] using hq
  | cons p rest ih =>
    by_cases h : p.1 = k
    · simp only [dictInsert, if_pos h, List.mem_cons] at hq
      rcases hq with hq | hq
      · exact Or.inl hq
      · exact Or.inr (List.mem_cons_of_mem _ hq)
    · simp only [dictInsert, if_neg h, List.mem_cons] at hq
      rcases hq with hq | hq
      · exact Or.inr (hq ▸ List.mem_cons_self _ _)
      · rcases ih hq with hh | hh
        · exact Or.inl hh
        · exact Or.inr (List.mem_cons_of_mem _ hh)

theorem dictLookup_eq_some_of_mem (d : List (κ × ℕ)) (q : κ × ℕ)
    (hd : (d.map Prod.fst).Nodup) (hq : q ∈ d) :
    dictLookup d q.1 = some q.2 := by
  induction d with
  | nil => simp at hq
  | cons p rest ih =>
    simp only [List.map_cons, List.nodup_cons] at hd
    rcases List.mem_cons.mp hq with hq | hq
    · subst hq
      simp [dictLookup]
    · have hne : p.1 ≠ q.1 := by
        intro h
        exact hd.1 (h ▸ List.mem_map_of_mem Prod.fst hq)
      simp [dictLookup, hne, ih hd.2 hq]

theorem setAll_lookup_notmem (l : List (κ × ℕ)) (v : ℕ) (a : κ)
    (h : ∀ r ∈ l, r.1 ≠ a) (d : List (κ × ℕ)) :
    dictLookup (setAll d v l) a = dictLookup d a := by
  induction l generalizing d with
  | nil => simp [setAll]
  | cons p rest ih =>
    have hp : p.1 ≠ a := h p (List.mem_cons_self _ _)
    have hrest : ∀ r ∈ rest, r.1 ≠ a := fun r hr => h r (List.mem_cons_of_mem _ hr)
    calc dictLookup (setAll (dictInsert d p.1 v) v rest) a
        = dictLookup (dictInsert d p.1 v) a := ih hrest (dictInsert d p.1 v)
      _ = dictLookup d a := dictLookup_insert_ne _ _ _ _ (fun hh => hp hh.symm)

theorem setAll_lookup_mem (l : List (κ × ℕ)) (v : ℕ) (a : κ)
    (h : ∃ r ∈ l, r.1 = a) (d : List (κ × ℕ)) :
    dictLookup (setAll d v l) a = some v := by
  induction l generalizing d with
  | nil => simp at h
  | cons p rest ih =>
    by_cases hmem : ∃ r ∈ rest, r.1 = a
    · exact ih hmem (dictInsert d p.1 v)
    · have hpa : p.1 = a := by
        rcases h with ⟨r, hr, hra⟩
        rcases List.mem_cons.mp hr with hr | hr
        · exact hr ▸ hra
        · exact absurd ⟨r, hr, hra⟩ hmem
      have hrest : ∀ r ∈ rest, r.1 ≠ a := by
        intro r hr hra
        exact hmem ⟨r, hr, hra⟩
      calc dictLookup (setAll d v (p :: rest)) a
          = dictLookup (dictInsert d p.1 v) a :=
            setAll_lookup_notmem rest v a hrest (dictInsert d p.1 v)
        _ = some v := by rw [hpa, dictLookup_insert_self]

theorem mem_setAll (l d : List (κ × ℕ)) (v : ℕ) (q : κ × ℕ)
    (hq : q ∈ setAll d v l) : q.2 = v ∨ q ∈ d := by
  induction l generalizing d with
  | nil => exact Or.inr (by simpa [setAll] using hq)
  | cons p rest ih =>
    simp only [setAll] at hq
    rcases ih (dictInsert d p.1 v) hq with hh | hh
    · exact Or.inl hh
    · rcases mem_dictInsert d p.1 v q hh with hh2 | hh2
      · exact Or.inl (by rw [hh2])
      · exact Or.inr hh2

theorem nodup_keys_setAll (l d : List (κ × ℕ)) (v : ℕ)
    (hd : (d.map Prod.fst).Nodup) : ((setAll d v l).map Prod.fst).Nodup := by
  induction l generalizing d with
  | nil => simpa [setAll] using hd
  | cons p rest ih =>
    simpa [setAll] using ih (dictInsert d p.1 v) (nodup_keys_dictInsert d p.1 v hd)

theorem setAll_ne_nil_of_ne_nil (l d : List (κ × ℕ)) (v : ℕ) (hd : d ≠ []) :
    setAll d v l ≠ [] := by
  induction l generalizing d with
  | nil => simpa [setAll] using hd
  | cons p rest ih =>
    simpa [setAll] using ih (dictInsert d p.1 v) (dictInsert_ne_nil d p.1 v)

theorem setAll_eq_nil (l d : List (κ × ℕ)) (v : ℕ) (h : setAll d v l = []) :
    d = [] ∧ l = [] := by
  cases l with
  | nil => exact ⟨by simpa [setAll] using h, rfl⟩
  | cons p rest =>
    exfalso
    exact setAll_ne_nil_of_ne_nil rest (dictInsert d p.1 v) v
      (dictInsert_ne_nil d p.1 v) (by simpa [setAll] using h)

end DictLemmas

section MergeLemmas

variable {ι : Type}

theorem merge_N (p0 p1 : VariancePart ι) : (merge p0 p1).N = p0.N + p1.N := by
  by_cases h : p0.N = 0
  · simp [merge, h]
  · simp [merge, h]

theorem validate_nil {κ : Type} : _validate_n ([] : List (κ × ℕ)) = some 0 := rfl

theorem validate_of_all_eq {κ : Type} (d : List (κ × ℕ)) (c : ℕ)
    (hne : d ≠ []) (h : ∀ p ∈ d, p.2 = c) : _validate_n d = some c := by
  cases d with
  | nil => exact absurd rfl hne
  | cons p rest =>
    have hp : p.2 = c := h p (List.mem_cons_self _ _)
    have hall : rest.all (fun q => q.2 == p.2) = true := by
      rw [List.all_eq_true]
      intro q hq
      have hq2 : q.2 = c := h q (List.mem_cons_of_mem _ hq)
      rw [beq_iff_eq, hq2, hp]
    simp only [_validate_n]
    rw [if_pos hall, hp]

theorem validate_ne_of_mem {κ : Type} (d : List (κ × ℕ)) (p q : κ × ℕ)
    (hp : p ∈ d) (hq : q ∈ d) (hne : p.2 ≠ q.2) : _validate_n d = none := by
  cases d with
  | nil => simp at hp
  | cons r rest =>
    by_cases hall : rest.all (fun x => x.2 == r.2) = true
    · exfalso
      rw [List.all_eq_true] at hall
      have hval : ∀ x ∈ r :: rest, x.2 = r.2 := by
        intro x hx
        rcases List.mem_cons.mp hx with hx | hx
        · rw [hx]
        · simpa using hall x hx
      exact hne ((hval p hp).trans (hval q hq).symm)
    · simp [_validate_n, hall]

end MergeLemmas

section Algebra

theorem sum_sq_dev (l : List ℚ) (m : ℚ) :
    (l.map fun x => (x - m) ^ 2).sum
      = (l.map fun x => x ^ 2).sum - 2 * m * l.sum + (l.length : ℚ) * m ^ 2 := by
  induction l with
  | nil => simp
  | cons a rest ih =>
    simp only [List.map_cons, List.sum_cons, List.length_cons, ih]
    push_cast
    ring

theorem sqDevSum_eq (l : List ℚ) (hl : l ≠ []) :
    sqDevSum l = (l.map fun x => x ^ 2).sum - l.sum ^ 2 / (l.length : ℚ) := by
  have hn : (l.length : ℚ) ≠ 0 := by
    have := List.length_pos.mpr hl
    exact_mod_cast Nat.pos_iff_ne_zero.mp this
  rw [sqDevSum, sum_sq_dev]
  field_simp
  ring

theorem sqDevSum_append (xs ys : List ℚ) (hx : xs ≠ []) (hy : ys ≠ []) :
    sqDevSum (xs ++ ys)
      = sqDevSum xs + sqDevSum ys +
          (ys.length : ℚ) * (ys.sum / (ys.length : ℚ) - xs.sum / (xs.length : ℚ)) *
            (ys.sum / (ys.length : ℚ) -
              (xs.sum / (xs.length : ℚ) +
                ((ys.length : ℚ) *
                    (ys.sum / (ys.length : ℚ) - xs.sum / (xs.length : ℚ))) /
                  ((xs.length : ℚ) + (ys.length : ℚ)))) := by
  have hnx : (xs.length : ℚ) ≠ 0 := by
    have := List.length_pos.mpr hx
    exact_mod_cast Nat.pos_iff_ne_zero.mp this
  have hny : (ys.length : ℚ) ≠ 0 := by
    have := List.length_pos.mpr hy
    exact_mod_cast Nat.pos_iff_ne_zero.mp this
  have hnxy : (xs.length : ℚ) + (ys.length : ℚ) ≠ 0 := by
    have hx0 : (0 : ℚ) < (xs.length : ℚ) := by
      exact_mod_cast List.length_pos.mpr hx
    have hy0 : (0 : ℚ) ≤ (ys.length : ℚ) := by positivity
    linarith
  have happ : xs ++ ys ≠ [] := by
    simp [hx]
  rw [sqDevSum_eq _ happ, sqDevSum_eq _ hx, sqDevSum_eq _ hy]
  simp only [List.map_append, List.sum_append, List.length_append]
  push_cast
  field_simp
  ring

end Algebra

section TileLemmas

variable {ι κ : Type} [DecidableEq κ]

theorem col_length (tile : List (ι → ℚ)) (i : ι) :
    (col tile i).length = tile.length := by
  simp [col]

theorem col_append (xs ys : List (ι → ℚ)) (i : ι) :
    col (xs ++ ys) i = col xs i ++ col ys i := by
  simp [col]

theorem sqDevSum_singleton (x : ℚ) : sqDevSum [x] = 0 := by
  simp [sqDevSum]

theorem npVarAxis0_ddof_pred (tile : List (ι → ℚ)) (h : 1 ≤ tile.length) (i : ι) :
    npVarAxis0 tile (tile.length - 1) i = sqDevSum (col tile i) := by
  have hc : ((tile.length - 1 : ℕ) : ℚ) = (tile.length : ℚ) - 1 := by
    push_cast [h]
    ring
  have hone : ((col tile i).length : ℚ) - ((tile.length - 1 : ℕ) : ℚ) = 1 := by
    rw [col_length, hc]
    ring
  simp only [npVarAxis0, sqDevSum, hone, div_one]

theorem merge_guard (p0 p1 : VariancePart ι) (h : p0.N = 0) : merge p0 p1 = p1 := by
  simp [merge, h]

theorem merge_apply_var (p0 p1 : VariancePart ι) (h : ¬p0.N = 0) (i : ι) :
    (merge p0 p1).var i
      = p0.var i + p1.var i +
          (p1.N : ℚ) * (p1.sum_im i / (p1.N : ℚ) - p0.sum_im i / (p0.N : ℚ)) *
            (p1.sum_im i / (p1.N : ℚ) -
              (p0.sum_im i / (p0.N : ℚ) +
                ((p1.N : ℚ) *
                    (p1.sum_im i / (p1.N : ℚ) - p0.sum_im i / (p0.N : ℚ))) /
                  ((p0.N : ℚ) + (p1.N : ℚ)))) := by
  simp [merge, h]

theorem merge_apply_sum (p0 p1 : VariancePart ι) (h : ¬p0.N = 0) (i : ι) :
    (merge p0 p1).sum_im i = p0.sum_im i + p1.sum_im i := by
  simp [merge, h]

theorem process_tile_first (f : ι → ℚ) (k : κ) :
    StdDevUDF.process_tile (initState ι κ) [f] k = exactState [f] k := by
  have hvar : ∀ i, npVarAxis0 [f] 0 i = sqDevSum (col [f] i) :=
    fun i => by simpa using npVarAxis0_ddof_pred [f] (by simp) i
  refine UDFState.ext ?_ ?_ ?_
  · funext i
    simp [StdDevUDF.process_tile, initState, exactState, dictLookup, dictInsert,
      merge, hvar i]
  · funext i
    simp [StdDevUDF.process_tile, initState, exactState, dictLookup, dictInsert, merge]
  · simp [StdDevUDF.process_tile, initState, exactState, dictLookup, dictInsert, merge]

theorem process_tile_exact_step (xs : List (ι → ℚ)) (f : ι → ℚ) (k : κ)
    (hxs : xs ≠ []) :
    StdDevUDF.process_tile (exactState xs k) [f] k = exactState (xs ++ [f]) k := by
  have hn0 : xs.length ≠ 0 := fun h => hxs (List.length_eq_zero.mp h)
  have hlook : dictLookup (exactState xs k).num_frame k = some xs.length := by
    simp [exactState, dictLookup]
  simp only [StdDevUDF.process_tile, hlook, Option.isSome_some, if_true, Option.getD_some]
  refine UDFState.ext ?_ ?_ ?_
  · funext i
    simp only []
    have hcne : col xs i ≠ [] := by
      intro h
      have hlen := col_length xs i
      rw [h] at hlen
      exact hn0 hlen.symm
    rw [merge_apply_var _ _ hn0 i]
    have hvar1 : npVarAxis0 [f] ([f].length - 1) i = sqDevSum (col [f] i) :=
      npVarAxis0_ddof_pred [f] (by simp) i
    show (exactState xs k).var i + npVarAxis0 [f] ([f].length - 1) i + _
        = (exactState (xs ++ [f]) k).var i
    rw [hvar1]
    show sqDevSum (col xs i) + sqDevSum (col [f] i) + _ = sqDevSum (col (xs ++ [f]) i)
    rw [col_append, sqDevSum_append (col xs i) (col [f] i) hcne (by simp [col])]
    simp [col, col_length, exactState]
  · funext i
    simp only []
    rw [merge_apply_sum _ _ hn0 i]
    simp [exactState, col_append]
  · simp only [merge_N]
    simp [exactState, dictInsert]

theorem streamFrames_exact (rest : List (ι → ℚ)) (xs : List (ι → ℚ)) (k : κ)
    (hxs : xs ≠ []) :
    streamFrames (exactState xs k) rest k = exactState (xs ++ rest) k := by
  induction rest generalizing xs with
  | nil => simp [streamFrames]
  | cons f fs ih =>
    calc streamFrames (exactState xs k) (f :: fs) k
        = streamFrames (exactState (xs ++ [f]) k) fs k := by
          simp [streamFrames, process_tile_exact_step xs f k hxs]
      _ = exactState ((xs ++ [f]) ++ fs) k := ih (xs ++ [f]) (by simp)
      _ = exactState (xs ++ f :: fs) k := by simp

theorem streamFrames_init (frames : List (ι → ℚ)) (k : κ) (h : frames ≠ []) :
    streamFrames (initState ι κ) frames k = exactState frames k := by
  cases frames with
  | nil => exact absurd rfl h
  | cons f fs =>
    calc streamFrames (initState ι κ) (f :: fs) k
        = streamFrames (exactState [f] k) fs k := by
          simp [streamFrames, process_tile_first f k]
      _ = exactState ([f] ++ fs) k := streamFrames_exact fs [f] k (by simp)
      _ = exactState (f :: fs) k := by simp

end TileLemmas

section InvLemmas

variable {ι κ : Type} [DecidableEq κ]

omit [DecidableEq κ] in
theorem inv_validate (s : GState ι κ) (h : Inv s) :
    _validate_n s.toState.num_frame = some s.folded := by
  rcases h with ⟨hnd, hemp, hval⟩
  cases hmap : s.toState.num_frame with
  | nil => simp [_validate_n, hemp hmap]
  | cons p rest =>
    rw [hmap] at hval
    exact validate_of_all_eq _ _ (by simp) fun q hq => hval q hq

omit [DecidableEq κ] in
theorem inv_single_key (s : GState ι κ) (k : κ) (h : Inv s)
    (hk : ∀ p ∈ s.toState.num_frame, p.1 = k) :
    s.toState.num_frame = [] ∨ s.toState.num_frame = [(k, s.folded)] := by
  rcases h with ⟨hnd, hemp, hval⟩
  cases hmap : s.toState.num_frame with
  | nil => exact Or.inl rfl
  | cons p rest =>
    rw [hmap] at hnd hval hk
    right
    have hp1 : p.1 = k := hk p (List.mem_cons_self _ _)
    have hp2 : p.2 = s.folded := hval p (List.mem_cons_self _ _)
    have hrest : rest = [] := by
      cases rest with
      | nil => rfl
      | cons q qs =>
        exfalso
        have hq1 : q.1 = k := hk q (by simp)
        simp only [List.map_cons, List.nodup_cons] at hnd
        exact hnd.1 (by simp [hp1, hq1])
    subst hrest
    rw [show p = (k, s.folded) from Prod.ext hp1 hp2]

theorem inv_processTileG (s : GState ι κ) (tile : List (ι → ℚ)) (k : κ)
    (h : Inv s) (hk : ∀ p ∈ s.toState.num_frame, p.1 = k) :
    Inv (processTileG s tile k) := by
  rcases inv_single_key s k h hk with hmap | hmap
  · have hf : s.folded = 0 := h.2.1 hmap
    have hres : (StdDevUDF.process_tile s.toState tile k).num_frame
        = [(k, tile.length)] := by
      simp [StdDevUDF.process_tile, hmap, dictLookup, dictInsert, merge_N]
    refine ⟨?_, ?_, ?_⟩
    · simp [processTileG, hres]
    · simp [processTileG, hres]
    · intro p hp
      simp only [processTileG] at hp ⊢
      rw [hres] at hp
      have hp2 : p = (k, tile.length) := List.mem_singleton.mp hp
      rw [hp2, hf]
      simp
  · have hres : (StdDevUDF.process_tile s.toState tile k).num_frame
        = [(k, s.folded + tile.length)] := by
      simp [StdDevUDF.process_tile, hmap, dictLookup, dictInsert, merge_N]
    refine ⟨?_, ?_, ?_⟩
    · simp [processTileG, hres]
    · simp [processTileG, hres]
    · intro p hp
      simp only [processTileG] at hp ⊢
      rw [hres] at hp
      have hp2 : p = (k, s.folded + tile.length) := List.mem_singleton.mp hp
      rw [hp2]

theorem inv_mergeBuffersG (dest src : GState ι κ)
    (hd : Inv dest) (hs : Inv src)
    (hcov : ∀ p ∈ dest.toState.num_frame, ∃ q ∈ src.toState.num_frame, q.1 = p.1) :
    ∀ out, mergeBuffersG dest src = some out → Inv out := by
  intro out hout
  have hvd := inv_validate dest hd
  have hvs := inv_validate src hs
  simp only [mergeBuffersG, StdDevUDF.merge, hvd, hvs, Option.map_some] at hout
  injection hout with hout
  subst hout
  have hN : (merge (⟨dest.toState.var, dest.toState.sum_frame, dest.folded⟩ : VariancePart ι)
      ⟨src.toState.var, src.toState.sum_frame, src.folded⟩).N
      = dest.folded + src.folded := merge_N _ _
  refine ⟨?_, ?_, ?_⟩
  · exact nodup_keys_setAll src.toState.num_frame dest.toState.num_frame _ hd.1
  · intro hnil
    have hboth := setAll_eq_nil src.toState.num_frame dest.toState.num_frame _ hnil
    rw [hd.2.1 hboth.1, hs.2.1 hboth.2]
  · intro p hp
    rcases mem_setAll src.toState.num_frame dest.toState.num_frame _ p hp with hv | hmem
    · rw [hv, hN]
    · rcases hcov p hmem with ⟨q, hq, hq1⟩
      have hlk : dictLookup (setAll dest.toState.num_frame
          (merge (⟨dest.toState.var, dest.toState.sum_frame, dest.folded⟩ : VariancePart ι)
            ⟨src.toState.var, src.toState.sum_frame, src.folded⟩).N
          src.toState.num_frame) p.1 = some _ :=
        setAll_lookup_mem src.toState.num_frame _ p.1 ⟨q, hq, hq1⟩ dest.toState.num_frame
      have hnd : ((setAll dest.toState.num_frame
          (merge (⟨dest.toState.var, dest.toState.sum_frame, dest.folded⟩ : VariancePart ι)
            ⟨src.toState.var, src.toState.sum_frame, src.folded⟩).N
          src.toState.num_frame).map Prod.fst).Nodup :=
        nodup_keys_setAll src.toState.num_frame dest.toState.num_frame _ hd.1
      have hlk2 := dictLookup_eq_some_of_mem _ p hnd hp
      rw [hlk] at hlk2
      have := Option.some_inj.mp hlk2
      rw [← this, hN]

end InvLemmas

/-- C1: for accumulators with positive counts covering the same region, the
pairwise merge returns count `N_A + N_B`, elementwise summed value sums, and
`variance_sum_A + variance_sum_B + N_B * delta * delta_P` with `delta` and
`delta_P` exactly as the spec's formula states them. -/
theorem c1_merge_formula {ι : Type} (p0 p1 : VariancePart ι)
    (h0 : 0 < p0.N) (_h1 : 0 < p1.N) : merge p0 p1 = mergeSpec p0 p1 := by
  have hne : ¬p0.N = 0 := Nat.pos_iff_ne_zero.mp h0
  refine VariancePart.ext ?_ ?_ ?_
  · funext i
    rw [merge_apply_var _ _ hne i]
    simp [mergeSpec]
  · funext i
    rw [merge_apply_sum _ _ hne i]
    simp [mergeSpec]
  · rw [merge_N]
    simp [mergeSpec]

/-- Witness for C1 at a concrete input. -/
theorem c1_merge_formula_witness :
    0 < (⟨fun _ => 1, fun _ => 2, 1⟩ : VariancePart Unit).N ∧
    0 < (⟨fun _ => 3, fun _ => 5, 2⟩ : VariancePart Unit).N ∧
    merge (⟨fun _ => 1, fun _ => 2, 1⟩ : VariancePart Unit) ⟨fun _ => 3, fun _ => 5, 2⟩
      = mergeSpec (⟨fun _ => 1, fun _ => 2, 1⟩ : VariancePart Unit) ⟨fun _ => 3, fun _ => 5, 2⟩ :=
  ⟨by decide, by decide, c1_merge_formula _ _ (by decide) (by decide)⟩

/-- C3 counterexample: commutativity fails, beyond any rounding tolerance,
when one operand is the empty accumulator (count 0, zeroed arrays): merging
the empty accumulator into `B` returns `B`'s variance array (here `3.0`),
while merging `B` with the empty accumulator divides by the zero count and
produces NaN. -/
theorem c3_counterexample :
    ((mergeNp (⟨fun _ => NpVal.fin 0, fun _ => NpVal.fin 0, 0⟩ : NpPart Unit)
        ⟨fun _ => NpVal.fin 3, fun _ => NpVal.fin 4, 2⟩).var (),
     (mergeNp (⟨fun _ => NpVal.fin 3, fun _ => NpVal.fin 4, 2⟩ : NpPart Unit)
        ⟨fun _ => NpVal.fin 0, fun _ => NpVal.fin 0, 0⟩).var ())
      = (NpVal.fin 3, NpVal.nan) ∧ NpVal.fin 3 ≠ NpVal.nan := by
  decide

/-- C3 (amended): the pairwise merge is associative and commutative on
accumulators with positive counts, exactly over rational arithmetic. -/
theorem c3_amended_assoc_comm {ι : Type} (A B C : VariancePart ι)
    (hA : 0 < A.N) (hB : 0 < B.N) (hC : 0 < C.N) :
    merge (merge A B) C = merge A (merge B C) ∧ merge A B = merge B A := by
  have hA0 : ¬A.N = 0 := Nat.pos_iff_ne_zero.mp hA
  have hB0 : ¬B.N = 0 := Nat.pos_iff_ne_zero.mp hB
  have hC0 : ¬C.N = 0 := Nat.pos_iff_ne_zero.mp hC
  have hAB0 : ¬(merge A B).N = 0 := by rw [merge_N]; omega
  have hBC0 : ¬(merge B C).N = 0 := by rw [merge_N]; omega
  have haq : (0 : ℚ) < (A.N : ℚ) := by exact_mod_cast hA
  have hbq : (0 : ℚ) < (B.N : ℚ) := by exact_mod_cast hB
  have hcq : (0 : ℚ) < (C.N : ℚ) := by exact_mod_cast hC
  have ha : (A.N : ℚ) ≠ 0 := ne_of_gt haq
  have hb : (B.N : ℚ) ≠ 0 := ne_of_gt hbq
  have hc : (C.N : ℚ) ≠ 0 := ne_of_gt hcq
  have hab : (A.N : ℚ) + (B.N : ℚ) ≠ 0 := by linarith
  have hbc : (B.N : ℚ) + (C.N : ℚ) ≠ 0 := by linarith
  have habc : (A.N : ℚ) + (B.N : ℚ) + (C.N : ℚ) ≠ 0 := by linarith
  constructor
  · refine VariancePart.ext ?_ ?_ ?_
    · funext i
      rw [merge_apply_var (merge A B) C hAB0 i, merge_apply_var A (merge B C) hA0 i,
        merge_apply_var A B hA0 i, merge_apply_var B C hB0 i,
        merge_apply_sum A B hA0 i, merge_apply_sum B C hB0 i, merge_N A B, merge_N B C]
      push_cast
      field_simp
      ring
    · funext i
      rw [merge_apply_sum (merge A B) C hAB0 i, merge_apply_sum A (merge B C) hA0 i,
        merge_apply_sum A B hA0 i, merge_apply_sum B C hB0 i]
      ring
    · rw [merge_N, merge_N, merge_N, merge_N]
      omega
  · refine VariancePart.ext ?_ ?_ ?_
    · funext i
      rw [merge_apply_var A B hA0 i, merge_apply_var B A hB0 i]
      field_simp
      ring
    · funext i
      rw [merge_apply_sum A B hA0 i, merge_apply_sum B A hB0 i]
      ring
    · rw [merge_N, merge_N]
      omega

/-- Witness for the amended C3 at a concrete input. -/
theorem c3_amended_assoc_comm_witness :
    0 < (⟨fun _ => 1, fun _ => 2, 1⟩ : VariancePart Unit).N ∧
    0 < (⟨fun _ => 0, fun _ => 3, 2⟩ : VariancePart Unit).N ∧
    0 < (⟨fun _ => 2, fun _ => 9, 3⟩ : VariancePart Unit).N ∧
    (merge (merge (⟨fun _ => 1, fun _ => 2, 1⟩ : VariancePart Unit) ⟨fun _ => 0, fun _ => 3, 2⟩)
        ⟨fun _ => 2, fun _ => 9, 3⟩
      = merge (⟨fun _ => 1, fun _ => 2, 1⟩ : VariancePart Unit)
          (merge ⟨fun _ => 0, fun _ => 3, 2⟩ ⟨fun _ => 2, fun _ => 9, 3⟩) ∧
     merge (⟨fun _ => 1, fun _ => 2, 1⟩ : VariancePart Unit) ⟨fun _ => 0, fun _ => 3, 2⟩
      = merge (⟨fun _ => 0, fun _ => 3, 2⟩ : VariancePart Unit) ⟨fun _ => 1, fun _ => 2, 1⟩) :=
  ⟨by decide, by decide, by decide,
   c3_amended_assoc_comm _ _ _ (by decide) (by decide) (by decide)⟩

/-- C4: evaluation at the failing input. Merging `A = (var 1.0, sum 2.0, N 1)`
with the empty accumulator `(var 0.0, sum 0.0, N 0)` is not `A`: the source
has no guard for `p1.N == 0`, so it computes `mean_B = 0/0 = NaN` and the
merged variance array is NaN instead of `A`'s value `1.0` (the count, `1`,
is the only part that survives). -/
theorem c4_empty_right_operand_nan :
    ((mergeNp (⟨fun _ => NpVal.fin 1, fun _ => NpVal.fin 2, 1⟩ : NpPart Unit)
        ⟨fun _ => NpVal.fin 0, fun _ => NpVal.fin 0, 0⟩).var (),
     (mergeNp (⟨fun _ => NpVal.fin 1, fun _ => NpVal.fin 2, 1⟩ : NpPart Unit)
        ⟨fun _ => NpVal.fin 0, fun _ => NpVal.fin 0, 0⟩).N)
      = (NpVal.nan, 1) ∧ NpVal.nan ≠ NpVal.fin 1 := by
  decide

/-- C5: the count validation returns 0 on an empty mapping, returns the
common value when all values agree, and fails (modelled as `none`, the
Python `assert` raising) whenever two values differ. -/
theorem c5_validate_n (κ : Type) :
    _validate_n ([] : List (κ × ℕ)) = some 0 ∧
    (∀ (d : List (κ × ℕ)) (c : ℕ), d ≠ [] → (∀ p ∈ d, p.2 = c) →
      _validate_n d = some c) ∧
    (∀ (d : List (κ × ℕ)) (p q : κ × ℕ), p ∈ d → q ∈ d → p.2 ≠ q.2 →
      _validate_n d = none) :=
  ⟨validate_nil, validate_of_all_eq, validate_ne_of_mem⟩

/-- Witness for C5 at concrete inputs. -/
theorem c5_validate_n_witness :
    _validate_n ([] : List (ℕ × ℕ)) = some 0 ∧
    _validate_n ([(0, 7), (1, 7)] : List (ℕ × ℕ)) = some 7 ∧
    _validate_n ([(0, 1), (1, 2)] : List (ℕ × ℕ)) = none :=
  ⟨(c5_validate_n ℕ).1,
   (c5_validate_n ℕ).2.1 _ 7 (by simp) (by decide),
   (c5_validate_n ℕ).2.2 _ (0, 1) (1, 2) (by decide) (by decide) (by decide)⟩

/-- C2: streaming any non-empty list of frames through the core as
single-frame tiles under one region key and finalizing yields exactly the
two-pass population variance (sum of squared deviations from the overall
mean, divided by the frame count), and the frame count itself. -/
theorem c2_stream_two_pass {ι κ : Type} [DecidableEq κ] (frames : List (ι → ℚ))
    (k : κ) (h : frames ≠ []) :
    ∃ r, consolidate_result (streamFrames (initState ι κ) frames k) = some r ∧
      r.num_frame = frames.length ∧
      ∀ i, r.var i = popVarianceSpec frames i := by
  rw [streamFrames_init frames k h]
  have hv : _validate_n (exactState (ι := ι) frames k).num_frame
      = some frames.length := by
    simp [exactState, _validate_n]
  simp only [consolidate_result, hv, Option.map_some]
  refine ⟨_, rfl, rfl, fun i => ?_⟩
  show sqDevSum (col frames i) / ((frames.length : ℕ) : ℚ) = popVarianceSpec frames i
  simp [popVarianceSpec, sqDevSum, col]

/-- Witness for C2 at a concrete two-frame input. -/
theorem c2_stream_two_pass_witness :
    ([fun _ => (0 : ℚ), fun _ => 2] : List (Unit → ℚ)) ≠ [] ∧
    (∃ r, consolidate_result
        (streamFrames (initState Unit ℕ) [fun _ => (0 : ℚ), fun _ => 2] 0) = some r ∧
      r.num_frame = ([fun _ => (0 : ℚ), fun _ => 2] : List (Unit → ℚ)).length ∧
      ∀ i, r.var i = popVarianceSpec [fun _ => (0 : ℚ), fun _ => 2] i) :=
  ⟨by simp, c2_stream_two_pass [fun _ => (0 : ℚ), fun _ => 2] 0 (by simp)⟩

/-- C6: for a tile with at least one frame, the tile-local accumulator's
variance array (computed with `ddof = len − 1`) is exactly the raw sum of
squared deviations from the tile's own mean, the updated buffers are the
pairwise merge of the running accumulator (count read from the region key,
0 if new) with that local accumulator, and the stored count for the key
becomes its previous value plus the tile's frame count. -/
theorem c6_process_tile {ι κ : Type} [DecidableEq κ] (s : UDFState ι κ)
    (tile : List (ι → ℚ)) (k : κ) (h : 1 ≤ tile.length) :
    (∀ i, npVarAxis0 tile (tile.length - 1) i = sqDevSum (col tile i)) ∧
    dictLookup (StdDevUDF.process_tile s tile k).num_frame k
      = some ((dictLookup s.num_frame k).getD 0 + tile.length) ∧
    (StdDevUDF.process_tile s tile k).var
      = (merge ⟨s.var, s.sum_frame, (dictLookup s.num_frame k).getD 0⟩
          ⟨fun i => sqDevSum (col tile i), fun i => (col tile i).sum, tile.length⟩).var ∧
    (StdDevUDF.process_tile s tile k).sum_frame
      = (merge ⟨s.var, s.sum_frame, (dictLookup s.num_frame k).getD 0⟩
          ⟨fun i => sqDevSum (col tile i), fun i => (col tile i).sum, tile.length⟩).sum_im := by
  have hddof : ∀ i, npVarAxis0 tile (tile.length - 1) i = sqDevSum (col tile i) :=
    fun i => npVarAxis0_ddof_pred tile h i
  have hp1 : (⟨npVarAxis0 tile (tile.length - 1), fun i => (col tile i).sum,
      tile.length⟩ : VariancePart ι)
      = ⟨fun i => sqDevSum (col tile i), fun i => (col tile i).sum, tile.length⟩ :=
    VariancePart.ext (funext hddof) rfl rfl
  refine ⟨hddof, ?_, ?_, ?_⟩
  · by_cases hsome : (dictLookup s.num_frame k).isSome = true
    · obtain ⟨n0, hn0⟩ := Option.isSome_iff_exists.mp hsome
      simp only [StdDevUDF.process_tile, hn0, Option.isSome_some, if_true,
        Option.getD_some]
      rw [dictLookup_insert_self, merge_N]
    · have hn : dictLookup s.num_frame k = none :=
        Option.not_isSome_iff_eq_none.mp hsome
      simp only [StdDevUDF.process_tile, hn, Option.isSome_none, Bool.false_eq_true,
        if_false, dictLookup_insert_self, Option.getD_some, Option.getD_none]
      rw [merge_N]
  · by_cases hsome : (dictLookup s.num_frame k).isSome = true
    · obtain ⟨n0, hn0⟩ := Option.isSome_iff_exists.mp hsome
      simp only [StdDevUDF.process_tile, hn0, Option.isSome_some, if_true,
        Option.getD_some]
      rw [hp1]
    · have hn : dictLookup s.num_frame k = none :=
        Option.not_isSome_iff_eq_none.mp hsome
      simp only [StdDevUDF.process_tile, hn, Option.isSome_none, Bool.false_eq_true,
        if_false, dictLookup_insert_self, Option.getD_some, Option.getD_none]
      rw [hp1]
  · by_cases hsome : (dictLookup s.num_frame k).isSome = true
    · obtain ⟨n0, hn0⟩ := Option.isSome_iff_exists.mp hsome
      simp only [StdDevUDF.process_tile, hn0, Option.isSome_some, if_true,
        Option.getD_some]
      rw [hp1]
    · have hn : dictLookup s.num_frame k = none :=
        Option.not_isSome_iff_eq_none.mp hsome
      simp only [StdDevUDF.process_tile, hn, Option.isSome_none, Bool.false_eq_true,
        if_false, dictLookup_insert_self, Option.getD_some, Option.getD_none]
      rw [hp1]

/-- Witness for C6 at a concrete input. -/
theorem c6_process_tile_witness :
    1 ≤ ([fun _ => (1 : ℚ), fun _ => 3] : List (Unit → ℚ)).length ∧
    ((∀ i : Unit, npVarAxis0 [fun _ => (1 : ℚ), fun _ => 3]
        (([fun _ => (1 : ℚ), fun _ => 3] : List (Unit → ℚ)).length - 1) i
        = sqDevSum (col [fun _ => (1 : ℚ), fun _ => 3] i)) ∧
     dictLookup (StdDevUDF.process_tile (initState Unit ℕ)
        [fun _ => (1 : ℚ), fun _ => 3] 0).num_frame 0
      = some ((dictLookup (initState Unit ℕ).num_frame 0).getD 0 +
          ([fun _ => (1 : ℚ), fun _ => 3] : List (Unit → ℚ)).length) ∧
     (StdDevUDF.process_tile (initState Unit ℕ) [fun _ => (1 : ℚ), fun _ => 3] 0).var
      = (merge ⟨(initState Unit ℕ).var, (initState Unit ℕ).sum_frame,
            (dictLookup (initState Unit ℕ).num_frame 0).getD 0⟩
          ⟨fun i => sqDevSum (col [fun _ => (1 : ℚ), fun _ => 3] i),
           fun i => (col [fun _ => (1 : ℚ), fun _ => 3] i).sum,
           ([fun _ => (1 : ℚ), fun _ => 3] : List (Unit → ℚ)).length⟩).var ∧
     (StdDevUDF.process_tile (initState Unit ℕ) [fun _ => (1 : ℚ), fun _ => 3] 0).sum_frame
      = (merge ⟨(initState Unit ℕ).var, (initState Unit ℕ).sum_frame,
            (dictLookup (initState Unit ℕ).num_frame 0).getD 0⟩
          ⟨fun i => sqDevSum (col [fun _ => (1 : ℚ), fun _ => 3] i),
           fun i => (col [fun _ => (1 : ℚ), fun _ => 3] i).sum,
           ([fun _ => (1 : ℚ), fun _ => 3] : List (Unit → ℚ)).length⟩).sum_im) :=
  ⟨by decide, c6_process_tile (initState Unit ℕ) [fun _ => (1 : ℚ), fun _ => 3] 0 (by decide)⟩

/-- C7: when both sides validate, the partition merge succeeds, the merged
state's arrays are the pairwise-merged combination, every region key present
in `src` is set to the combined count `N_dest + N_src`, and every key
present only in `dest` keeps its old count unchanged. -/
theorem c7_buffer_merge {ι κ : Type} [DecidableEq κ] (dest src : UDFState ι κ)
    (n0 n1 : ℕ) (h0 : _validate_n dest.num_frame = some n0)
    (h1 : _validate_n src.num_frame = some n1) :
    ∃ out, StdDevUDF.merge dest src = some out ∧
      out.var = (merge ⟨dest.var, dest.sum_frame, n0⟩
        ⟨src.var, src.sum_frame, n1⟩).var ∧
      out.sum_frame = (merge ⟨dest.var, dest.sum_frame, n0⟩
        ⟨src.var, src.sum_frame, n1⟩).sum_im ∧
      (∀ a, (∃ p ∈ src.num_frame, p.1 = a) →
        dictLookup out.num_frame a = some (n0 + n1)) ∧
      (∀ a, (∀ p ∈ src.num_frame, p.1 ≠ a) →
        dictLookup out.num_frame a = dictLookup dest.num_frame a) := by
  simp only [StdDevUDF.merge, h0, h1]
  refine ⟨_, rfl, rfl, rfl, ?_, ?_⟩
  · intro a ha
    rw [setAll_lookup_mem src.num_frame _ a ha dest.num_frame, merge_N]
  · intro a ha
    rw [setAll_lookup_notmem src.num_frame _ a ha dest.num_frame]

/-- Witness for C7 at a concrete input with a dest-only key. -/
theorem c7_buffer_merge_witness :
    _validate_n (⟨fun _ => (1 : ℚ), fun _ => 2, [(1, 2), (3, 2)]⟩ :
        UDFState Unit ℕ).num_frame = some 2 ∧
    _validate_n (⟨fun _ => (0 : ℚ), fun _ => 4, [(1, 3)]⟩ :
        UDFState Unit ℕ).num_frame = some 3 ∧
    (∃ out, StdDevUDF.merge
        (⟨fun _ => (1 : ℚ), fun _ => 2, [(1, 2), (3, 2)]⟩ : UDFState Unit ℕ)
        ⟨fun _ => (0 : ℚ), fun _ => 4, [(1, 3)]⟩ = some out ∧
      out.var = (merge ⟨(⟨fun _ => (1 : ℚ), fun _ => 2, [(1, 2), (3, 2)]⟩ :
            UDFState Unit ℕ).var,
          (⟨fun _ => (1 : ℚ), fun _ => 2, [(1, 2), (3, 2)]⟩ : UDFState Unit ℕ).sum_frame, 2⟩
        ⟨(⟨fun _ => (0 : ℚ), fun _ => 4, [(1, 3)]⟩ : UDFState Unit ℕ).var,
          (⟨fun _ => (0 : ℚ), fun _ => 4, [(1, 3)]⟩ : UDFState Unit ℕ).sum_frame, 3⟩).var ∧
      out.sum_frame = (merge ⟨(⟨fun _ => (1 : ℚ), fun _ => 2, [(1, 2), (3, 2)]⟩ :
            UDFState Unit ℕ).var,
          (⟨fun _ => (1 : ℚ), fun _ => 2, [(1, 2), (3, 2)]⟩ : UDFState Unit ℕ).sum_frame, 2⟩
        ⟨(⟨fun _ => (0 : ℚ), fun _ => 4, [(1, 3)]⟩ : UDFState Unit ℕ).var,
          (⟨fun _ => (0 : ℚ), fun _ => 4, [(1, 3)]⟩ : UDFState Unit ℕ).sum_frame, 3⟩).sum_im ∧
      (∀ a, (∃ p ∈ (⟨fun _ => (0 : ℚ), fun _ => 4, [(1, 3)]⟩ :
          UDFState Unit ℕ).num_frame, p.1 = a) →
        dictLookup out.num_frame a = some (2 + 3)) ∧
      (∀ a, (∀ p ∈ (⟨fun _ => (0 : ℚ), fun _ => 4, [(1, 3)]⟩ :
          UDFState Unit ℕ).num_frame, p.1 ≠ a) →
        dictLookup out.num_frame a
          = dictLookup (⟨fun _ => (1 : ℚ), fun _ => 2, [(1, 2), (3, 2)]⟩ :
              UDFState Unit ℕ).num_frame a)) :=
  ⟨by decide, by decide,
   c7_buffer_merge _ _ 2 3 (by decide) (by decide)⟩

/-- C8: finalization on a validated state with positive common count `N`
returns `variance = variance_sum / N`, `std = sqrt(variance)`,
`mean = value_sum / N` (all elementwise), the raw unnormalized `sum_frame`,
and `num_frame = N`. -/
theorem c8_consolidate {ι κ : Type} (s : UDFState ι κ) (n : ℕ)
    (hv : _validate_n s.num_frame = some n) (_hn : 0 < n) :
    ∃ r, consolidate_result s = some r ∧
      (∀ i, r.var i = s.var i / (n : ℚ)) ∧
      (∀ i, r.std i = Real.sqrt ((r.var i : ℚ) : ℝ)) ∧
      (∀ i, r.mean i = s.sum_frame i / (n : ℚ)) ∧
      r.sum_frame = s.sum_frame ∧
      r.num_frame = n := by
  simp only [consolidate_result, hv, Option.map_some]
  exact ⟨_, rfl, fun i => rfl, fun i => rfl, fun i => rfl, rfl, rfl⟩

/-- Witness for C8 at a concrete input. -/
theorem c8_consolidate_witness :
    _validate_n (⟨fun _ => (8 : ℚ), fun _ => 6, [(0, 2)]⟩ :
        UDFState Unit ℕ).num_frame = some 2 ∧
    0 < 2 ∧
    (∃ r, consolidate_result
        (⟨fun _ => (8 : ℚ), fun _ => 6, [(0, 2)]⟩ : UDFState Unit ℕ) = some r ∧
      (∀ i, r.var i = (⟨fun _ => (8 : ℚ), fun _ => 6, [(0, 2)]⟩ :
          UDFState Unit ℕ).var i / ((2 : ℕ) : ℚ)) ∧
      (∀ i, r.std i = Real.sqrt ((r.var i : ℚ) : ℝ)) ∧
      (∀ i, r.mean i = (⟨fun _ => (8 : ℚ), fun _ => 6, [(0, 2)]⟩ :
          UDFState Unit ℕ).sum_frame i / ((2 : ℕ) : ℚ)) ∧
      r.sum_frame = (⟨fun _ => (8 : ℚ), fun _ => 6, [(0, 2)]⟩ :
          UDFState Unit ℕ).sum_frame ∧
      r.num_frame = 2) :=
  ⟨by decide, by decide, c8_consolidate _ 2 (by decide) (by decide)⟩

/-- C9 counterexample: finalizing buffers in which no frame was ever
processed (empty region mapping, zeroed arrays, so `N = 0`) does NOT fail:
the source divides by zero and returns a result whose variance and mean
arrays are NaN. -/
theorem c9_counterexample :
    ((consolidateNp (⟨fun _ => NpVal.fin 0, fun _ => NpVal.fin 0, []⟩ :
        NpState Unit ℕ)).map fun r => (r.num_frame, r.var (), r.mean ()))
      = some (0, NpVal.nan, NpVal.nan) := by
  decide

/-- C9 (amended): with `N = 0` and zeroed buffers, finalization performs the
divisions anyway and returns a result record with `num_frame = 0` and NaN
variance and mean arrays, instead of raising any error. -/
theorem c9_amended_divides_nan {ι κ : Type} (s : NpState ι κ)
    (h : _validate_n s.num_frame = some 0)
    (hv : ∀ i, s.var i = NpVal.fin 0) (hs : ∀ i, s.sum_frame i = NpVal.fin 0) :
    ∃ r, consolidateNp s = some r ∧ r.num_frame = 0 ∧
      ∀ i, r.var i = NpVal.nan ∧ r.mean i = NpVal.nan := by
  simp only [consolidateNp, h, Option.map_some]
  refine ⟨_, rfl, rfl, fun i => ⟨?_, ?_⟩⟩
  · show (s.var i).div (NpVal.fin ((0 : ℕ) : ℚ)) = NpVal.nan
    rw [hv i]
    simp [NpVal.div]
  · show (s.sum_frame i).div (NpVal.fin ((0 : ℕ) : ℚ)) = NpVal.nan
    rw [hs i]
    simp [NpVal.div]

/-- Witness for the amended C9 at a concrete input. -/
theorem c9_amended_divides_nan_witness :
    _validate_n (⟨fun _ => NpVal.fin 0, fun _ => NpVal.fin 0, []⟩ :
        NpState Unit ℕ).num_frame = some 0 ∧
    (∀ i : Unit, (⟨fun _ => NpVal.fin 0, fun _ => NpVal.fin 0, []⟩ :
        NpState Unit ℕ).var i = NpVal.fin 0) ∧
    (∀ i : Unit, (⟨fun _ => NpVal.fin 0, fun _ => NpVal.fin 0, []⟩ :
        NpState Unit ℕ).sum_frame i = NpVal.fin 0) ∧
    (∃ r, consolidateNp (⟨fun _ => NpVal.fin 0, fun _ => NpVal.fin 0, []⟩ :
        NpState Unit ℕ) = some r ∧ r.num_frame = 0 ∧
      ∀ i, r.var i = NpVal.nan ∧ r.mean i = NpVal.nan) :=
  ⟨rfl, fun _ => rfl, fun _ => rfl,
   c9_amended_divides_nan _ rfl (fun _ => rfl) (fun _ => rfl)⟩

/-- C10 counterexample: merging buffers whose region-key sets are disjoint
(`dest` holds key 1 with count 2, `src` holds key 2 with count 3) produces a
state whose arrays have folded 5 frames, yet key 1 still records count 2:
the count was not advanced together with the arrays. -/
theorem c10_counterexample :
    ((mergeBuffersG (⟨⟨fun _ => 0, fun _ => 0, [(1, 2)]⟩, 2⟩ : GState Unit ℕ)
        ⟨⟨fun _ => 0, fun _ => 0, [(2, 3)]⟩, 3⟩).map
        fun out => (out.folded, dictLookup out.toState.num_frame 1,
                    dictLookup out.toState.num_frame 2))
      = some (5, some 2, some 5) ∧ (2 : ℕ) ≠ 5 := by
  decide

/-- C10 (amended): the count/array invariant is preserved by the tile update
step when the state's region keys are confined to the tile's key, and by the
buffer merge whenever every region key of `dest` also occurs in `src`; only
a merge with a dest-only region key can break it. -/
theorem c10_amended_invariant {ι κ : Type} [DecidableEq κ]
    (s dest src : GState ι κ) (tile : List (ι → ℚ)) (k : κ)
    (hs : Inv s) (hk : ∀ p ∈ s.toState.num_frame, p.1 = k)
    (hd : Inv dest) (hsrc : Inv src)
    (hcov : ∀ p ∈ dest.toState.num_frame, ∃ q ∈ src.toState.num_frame, q.1 = p.1) :
    Inv (processTileG s tile k) ∧
    ∀ out, mergeBuffersG dest src = some out → Inv out :=
  ⟨inv_processTileG s tile k hs hk, inv_mergeBuffersG dest src hd hsrc hcov⟩

/-- Witness for the amended C10 at concrete inputs. -/
theorem c10_amended_invariant_witness :
    Inv (⟨⟨fun _ => 0, fun _ => 0, [(0, 1)]⟩, 1⟩ : GState Unit ℕ) ∧
    (∀ p ∈ (⟨⟨fun _ => 0, fun _ => 0, [(0, 1)]⟩, 1⟩ :
        GState Unit ℕ).toState.num_frame, p.1 = 0) ∧
    Inv (⟨⟨fun _ => 0, fun _ => 0, [(0, 2)]⟩, 2⟩ : GState Unit ℕ) ∧
    Inv (⟨⟨fun _ => 0, fun _ => 0, [(0, 3)]⟩, 3⟩ : GState Unit ℕ) ∧
    (∀ p ∈ (⟨⟨fun _ => 0, fun _ => 0, [(0, 2)]⟩, 2⟩ :
        GState Unit ℕ).toState.num_frame,
      ∃ q ∈ (⟨⟨fun _ => 0, fun _ => 0, [(0, 3)]⟩, 3⟩ :
        GState Unit ℕ).toState.num_frame, q.1 = p.1) ∧
    (Inv (processTileG (⟨⟨fun _ => 0, fun _ => 0, [(0, 1)]⟩, 1⟩ : GState Unit ℕ)
        [fun _ => 2] 0) ∧
     ∀ out, mergeBuffersG (⟨⟨fun _ => 0, fun _ => 0, [(0, 2)]⟩, 2⟩ : GState Unit ℕ)
        ⟨⟨fun _ => 0, fun _ => 0, [(0, 3)]⟩, 3⟩ = some out → Inv out) :=
  ⟨by unfold Inv; decide, by decide, by unfold Inv; decide, by unfold Inv; decide,
   by decide,
   c10_amended_invariant _ _ _ [fun _ => 2] 0 (by unfold Inv; decide) (by decide)
     (by unfold Inv; decide) (by unfold Inv; decide) (by decide)⟩

end StdDev
